import Mathlib

/-
Verification of the DiamondFinder scanning engine (hacks/diamonds.py).

The engine is embedded shallowly:
* the tag tuples of the Python code become `List TagElem`;
* the engine object (a `defaultdict(list)` with configuration attributes)
  becomes the structure `DiamondFinder`, whose `index` field is the
  insertion-ordered association list modelling the dict contents;
* `scanline`'s preallocated byte buffer is modelled at character level
  (`List Char`), which is exact for single-byte alphabets such as the
  hexadecimal alphabet the program is built for;
* a text stream is a list of per-line read results, where `none` models a
  line whose `readline` raised `UnicodeDecodeError` and `some l` a
  successfully decoded line; warnings are returned as `(lineNumber, tag)`
  pairs instead of going to the global warning channel;
* `scanfile` receives the file's stream contents as an argument and returns,
  besides the new engine state, a boolean recording whether the file was
  opened and scanned.
-/

namespace Diamonds

/-- One component of a location tag: a path-like string or a line number. -/
inductive TagElem where
  | str : String → TagElem
  | num : Nat → TagElem
  deriving DecidableEq, Repr

/-- A location tag: the Python code's heterogeneous tuple of components. -/
abbrev Tag := List TagElem

/-- The engine state: configuration attributes plus the result index
(the `defaultdict(list)` contents as an insertion-ordered association list). -/
structure DiamondFinder where
  chars : List Char
  minlen : Nat
  maxlen : Nat
  notify_diamonds : Bool
  index : List (String × List Tag)
  deriving DecidableEq, Repr

/-- `DiamondFinder.__init__`: stores the configuration and starts with the
empty `defaultdict(list)`. The source performs no validation. -/
def DiamondFinder.init (chars : List Char) (minlen maxlen : Nat)
    (notify_diamonds : Bool) : DiamondFinder :=
  ⟨chars, minlen, maxlen, notify_diamonds, []⟩

/-- `self[diamond].append(tag)` on the association list: append to the
existing key's list, or create the key at the end with a singleton list
(the `defaultdict(list)` default). -/
def addTag : List (String × List Tag) → String → Tag → List (String × List Tag)
  | [], d, t => [(d, [t])]
  | (k, ts) :: rest, d, t =>
    if k = d then (k, ts ++ [t]) :: rest else (k, ts) :: addTag rest d t

/-- `DiamondFinder.add_diamond`: record one occurrence of a diamond.
The `notify_diamonds` printing is a side channel with no effect on state. -/
def DiamondFinder.add_diamond (df : DiamondFinder) (d : String) (t : Tag) :
    DiamondFinder :=
  { df with index := addTag df.index d t }

/-- The tag list stored under a key, `[]` if the key is absent. -/
def lookupTags : List (String × List Tag) → String → List Tag
  | [], _ => []
  | (k, ts) :: rest, d => if k = d then ts else lookupTags rest d

/-- Whether a diamond string is a key of the result index. -/
def hasKey (I : List (String × List Tag)) (d : String) : Bool :=
  I.any (fun p => p.1 == d)

/-- The loop of `DiamondFinder.scanline`, state-passing form: walk the line
with the current run buffer, calling `add_diamond` at each qualifying flush.
`diamond_array[:index]` is modelled by the buffer list itself. -/
def scanlineSt (t : Tag) : DiamondFinder → List Char → List Char → DiamondFinder
  | df, [], _ => df
  | df, c :: rest, buf =>
    if c ∈ df.chars then
      if df.maxlen ≤ buf.length then scanlineSt t df rest buf
      else scanlineSt t df rest (buf ++ [c])
    else
      if df.minlen ≤ buf.length ∧ buf.length ≤ df.maxlen then
        scanlineSt t (df.add_diamond buf.asString t) rest []
      else scanlineSt t df rest []

/-- `DiamondFinder.scanline`: scan one line of text for diamonds. -/
def DiamondFinder.scanline (df : DiamondFinder) (line : List Char) (t : Tag) :
    DiamondFinder :=
  scanlineSt t df line []

/-- The diamonds emitted by the `scanline` loop, in order, starting from a
given run buffer (specification companion of `scanlineSt`). -/
def scanlineGo (chars : List Char) (ml Ml : Nat) :
    List Char → List Char → List String
  | [], _ => []
  | c :: rest, buf =>
    if c ∈ chars then
      if Ml ≤ buf.length then scanlineGo chars ml Ml rest buf
      else scanlineGo chars ml Ml rest (buf ++ [c])
    else
      if ml ≤ buf.length ∧ buf.length ≤ Ml then
        buf.asString :: scanlineGo chars ml Ml rest []
      else scanlineGo chars ml Ml rest []

/-- The diamonds emitted when scanning a whole line (empty initial buffer). -/
def scanlineEmits (chars : List Char) (ml Ml : Nat) (line : List Char) :
    List String :=
  scanlineGo chars ml Ml line []

/-- The run buffer left after the `scanline` loop processes a list of
characters. -/
def finalBuf (chars : List Char) (Ml : Nat) : List Char → List Char → List Char
  | [], buf => buf
  | c :: rest, buf =>
    if c ∈ chars then
      if Ml ≤ buf.length then finalBuf chars Ml rest buf
      else finalBuf chars Ml rest (buf ++ [c])
    else finalBuf chars Ml rest []

/-- `text.split('\n')`: the list of lines of a text, where a trailing
newline yields a final empty line and the empty text yields one empty
line. -/
def splitLines : List Char → List (List Char)
  | [] => [[]]
  | c :: rest =>
    if c = '\n' then [] :: splitLines rest
    else
      match splitLines rest with
      | [] => [[c]]
      | l :: ls => (c :: l) :: ls

/-- The loop of `DiamondFinder.scantext`: `enumerate(lines, 1)` with
`scanline(line + '\n', tag + (count,))` on each line. -/
def scantextGo (t : Tag) : DiamondFinder → List (List Char) → Nat → DiamondFinder
  | df, [], _ => df
  | df, line :: rest, count =>
    scantextGo t (df.scanline (line ++ ['\n']) (t ++ [TagElem.num count])) rest
      (count + 1)

/-- `DiamondFinder.scantext`: scan a text string for diamonds. -/
def DiamondFinder.scantext (df : DiamondFinder) (text : List Char) (t : Tag) :
    DiamondFinder :=
  scantextGo t df (splitLines text) 1

/-- The loop of `DiamondFinder.scanstream`: scan the remaining read results
with the current line counter, returning the new state and the emitted
decode-failure warnings `(lineNumber, tag)` in order. A failed read emits a
warning and is skipped; the `finally` of the source advances the counter in
both cases. -/
def scanstreamGo (t : Tag) :
    DiamondFinder → List (Option (List Char)) → Nat →
      DiamondFinder × List (Nat × Tag)
  | df, [], _ => (df, [])
  | df, none :: rest, count =>
    let r := scanstreamGo t df rest (count + 1)
    (r.1, (count, t) :: r.2)
  | df, some line :: rest, count =>
    scanstreamGo t (df.scanline line (t ++ [TagElem.num count])) rest (count + 1)

/-- `DiamondFinder.scanstream`: scan a text stream, given as the list of its
per-line read results (`none` = decode failure). -/
def DiamondFinder.scanstream (df : DiamondFinder)
    (lines : List (Option (List Char))) (t : Tag) :
    DiamondFinder × List (Nat × Tag) :=
  scanstreamGo t df lines 1

/-- Split a character list on a separator character, in the manner of
`str.split`: the empty list yields one empty part and a trailing separator
yields a final empty part. -/
def splitOnChar (sep : Char) : List Char → List (List Char)
  | [] => [[]]
  | c :: rest =>
    if c = sep then [] :: splitOnChar sep rest
    else
      match splitOnChar sep rest with
      | [] => [[c]]
      | l :: ls => (c :: l) :: ls

/-- `pathlib.Path(file).name`: the final path component. -/
def pathName (file : String) : String :=
  ((((splitOnChar '/' file.toList).filter (fun s => s ≠ [])).getLastD []).asString)

/-- The position of the last `'.'` in a name, `name.rfind('.')` with `none`
for absence. -/
def lastDotIdx (name : List Char) : Option Nat :=
  ((name.enum.filter (fun p => p.2 = '.')).map Prod.fst).getLast?

/-- `pathlib.Path(file).suffix`: the final extension of the last path
component, empty unless the last dot is at position `i` with
`0 < i < len(name) - 1`. -/
def pathSuffix (file : String) : String :=
  let name := (pathName file).toList
  match lastDotIdx name with
  | none => ""
  | some i => if 0 < i ∧ i < name.length - 1 then (name.drop i).asString else ""

/-- Membership of an extension in an optional extension list (`None` means
no filter; the source also accepts a bare string, which it normalizes to a
one-element list before this test). -/
def extIn (extension : String) : Option (List String) → Bool
  | none => false
  | some l => decide (extension ∈ l)

/-- `DiamondFinder.check_extension`: reject the file when its extension is
found in the `inc` list or in the `exc` list; accept otherwise. -/
def check_extension (file : String) (inc exc : Option (List String)) : Bool :=
  let extension := pathSuffix file
  if extIn extension inc then false
  else if extIn extension exc then false
  else true

/-- Abstraction of `os.path.relpath`: strip the base directory from the
front of the path when it is there (the `..` normalization of the library
function is not modelled; no claim depends on it). -/
def osRelpath (path base : String) : String :=
  if path.take (base.length + 1) = base ++ "/" then path.drop (base.length + 1)
  else path

/-- `DiamondFinder.scanfile`: check the extension filter; when it passes,
extend the tag with the (possibly relativized) file path and scan the
file's stream. The boolean records whether the file was opened and scanned;
`content` is the stream the open would yield. -/
def DiamondFinder.scanfile (df : DiamondFinder) (file : String)
    (content : List (Option (List Char))) (inc exc : Option (List String))
    (relpath : Option String) (t : Tag) : Bool × DiamondFinder :=
  if check_extension file inc exc then
    let filetag := match relpath with
      | none => file
      | some base => osRelpath file base
    (true, (df.scanstream content (t ++ [TagElem.str filetag])).1)
  else (false, df)

/-- A scan operation of the engine's public surface, with all outside data
(text, stream contents) supplied. -/
inductive ScanOp where
  | line (l : List Char) (t : Tag)
  | text (s : List Char) (t : Tag)
  | stream (ls : List (Option (List Char))) (t : Tag)
  | file (name : String) (content : List (Option (List Char)))
      (inc exc : Option (List String)) (rp : Option String) (t : Tag)

/-- Run one scan operation on the engine. -/
def runOp (df : DiamondFinder) : ScanOp → DiamondFinder
  | .line l t => df.scanline l t
  | .text s t => df.scantext s t
  | .stream ls t => (df.scanstream ls t).1
  | .file name content inc exc rp t =>
    (df.scanfile name content inc exc rp t).2

/-- Run a sequence of scan operations on the engine. -/
def runOps (df : DiamondFinder) (ops : List ScanOp) : DiamondFinder :=
  ops.foldl runOp df

/-- Record a list of emissions (diamond text with its tag) in order. -/
def applyEmits (df : DiamondFinder) (es : List (String × Tag)) : DiamondFinder :=
  es.foldl (fun s p => s.add_diamond p.1 p.2) df

/-- Pair each list element with its position, counting from `n`. -/
def numberFrom : Nat → List α → List (Nat × α)
  | _, [] => []
  | n, a :: as => (n, a) :: numberFrom (n + 1) as

/-- The emissions of `scantext` over a list of lines with a running
1-based line counter. -/
def textEmitsGo (chars : List Char) (ml Ml : Nat) (t : Tag) :
    List (List Char) → Nat → List (String × Tag)
  | [], _ => []
  | l :: rest, count =>
    (scanlineEmits chars ml Ml (l ++ ['\n'])).map
        (fun d => (d, t ++ [TagElem.num count]))
      ++ textEmitsGo chars ml Ml t rest (count + 1)

/-- The emissions of `scantext` on a text. -/
def textEmits (chars : List Char) (ml Ml : Nat) (text : List Char) (t : Tag) :
    List (String × Tag) :=
  textEmitsGo chars ml Ml t (splitLines text) 1

/-- The emissions of `scanstream` over the remaining read results. -/
def streamEmits (chars : List Char) (ml Ml : Nat) (t : Tag) :
    List (Option (List Char)) → Nat → List (String × Tag)
  | [], _ => []
  | none :: rest, count => streamEmits chars ml Ml t rest (count + 1)
  | some l :: rest, count =>
    (scanlineEmits chars ml Ml l).map (fun d => (d, t ++ [TagElem.num count]))
      ++ streamEmits chars ml Ml t rest (count + 1)

/-- The emissions of one scan operation (they depend only on the scanned
data and the configuration, not on the result index). -/
def opEmits (chars : List Char) (ml Ml : Nat) : ScanOp → List (String × Tag)
  | .line l t => (scanlineEmits chars ml Ml l).map (fun d => (d, t))
  | .text s t => textEmits chars ml Ml s t
  | .stream ls t => streamEmits chars ml Ml t ls 1
  | .file name content inc exc rp t =>
    if check_extension name inc exc then
      let filetag := match rp with
        | none => name
        | some base => osRelpath name base
      streamEmits chars ml Ml (t ++ [TagElem.str filetag]) content 1
    else []

/-- The emissions of a sequence of scan operations, in order. -/
def opsEmits (chars : List Char) (ml Ml : Nat) : List ScanOp → List (String × Tag)
  | [] => []
  | op :: rest => opEmits chars ml Ml op ++ opsEmits chars ml Ml rest

/-- The number of occurrences of a given diamond text recorded over a
sequence of scan operations. -/
def recordedCount (chars : List Char) (ml Ml : Nat) (ops : List ScanOp)
    (d : String) : Nat :=
  (opsEmits chars ml Ml ops).countP (fun p => p.1 == d)

/-- `add_diamond` leaves the alphabet untouched. -/
@[simp] theorem add_diamond_chars (df : DiamondFinder) (d : String) (t : Tag) :
    (df.add_diamond d t).chars = df.chars := rfl

/-- `add_diamond` leaves the minimum length untouched. -/
@[simp] theorem add_diamond_minlen (df : DiamondFinder) (d : String) (t : Tag) :
    (df.add_diamond d t).minlen = df.minlen := rfl

/-- `add_diamond` leaves the maximum length untouched. -/
@[simp] theorem add_diamond_maxlen (df : DiamondFinder) (d : String) (t : Tag) :
    (df.add_diamond d t).maxlen = df.maxlen := rfl

/-- `add_diamond` rewrites the index through `addTag`. -/
@[simp] theorem add_diamond_index (df : DiamondFinder) (d : String) (t : Tag) :
    (df.add_diamond d t).index = addTag df.index d t := rfl

/-- Recording a tag appends it to the addressed key's list and leaves every
other key's list unchanged. -/
theorem lookupTags_addTag (I : List (String × List Tag)) (d d' : String)
    (t : Tag) :
    lookupTags (addTag I d t) d' =
      if d' = d then lookupTags I d' ++ [t] else lookupTags I d' := by
  induction I with
  | nil =>
    by_cases h : d' = d
    · subst h; simp [addTag, lookupTags]
    · simp [addTag, lookupTags, h, Ne.symm h]
  | cons p rest ih =>
    obtain ⟨k, ts⟩ := p
    by_cases hk : k = d
    · subst hk
      by_cases h : d' = k
      · subst h; simp [addTag, lookupTags]
      · simp [addTag, lookupTags, h, Ne.symm h]
    · by_cases h : d' = k
      · subst h
        have hne : d' ≠ d := hk
        simp [addTag, lookupTags, hk, hne]
      · simp [addTag, lookupTags, hk, h, Ne.symm h, ih]

/-- Recording a tag makes its key present and preserves every other key. -/
theorem hasKey_addTag (I : List (String × List Tag)) (d d' : String) (t : Tag) :
    hasKey (addTag I d t) d' = ((d' == d) || hasKey I d') := by
  induction I with
  | nil =>
    by_cases h : d' = d
    · subst h; simp [addTag, hasKey]
    · have h1 : (d' == d) = false := by simp [h]
      have h2 : (d == d') = false := by simp [Ne.symm h]
      simp [addTag, hasKey, h1, h2]
  | cons p rest ih =>
    obtain ⟨k, ts⟩ := p
    by_cases hk : k = d
    · subst hk
      by_cases h : d' = k
      · subst h; simp [addTag, hasKey]
      · have h1 : (d' == k) = false := by simp [h]
        have h2 : (k == d') = false := by simp [Ne.symm h]
        simp [addTag, hasKey, h1, h2]
    · simp only [addTag, if_neg hk, hasKey, List.any_cons] at ih ⊢
      rw [ih]
      cases h : (k == d') <;> cases h' : (d' == d) <;> simp

/-- A key is present exactly when it occurs among the index's keys. -/
theorem hasKey_iff_mem (I : List (String × List Tag)) (d : String) :
    hasKey I d = true ↔ d ∈ I.map Prod.fst := by
  constructor
  · intro h
    simp only [hasKey] at h
    rcases List.any_eq_true.mp h with ⟨p, hp, hbeq⟩
    exact List.mem_map.mpr ⟨p, hp, by simpa using hbeq⟩
  · intro h
    rcases List.mem_map.mp h with ⟨p, hp, hfst⟩
    simp only [hasKey]
    exact List.any_eq_true.mpr ⟨p, hp, by simp [hfst]⟩

/-- Recording a tag appends its key to the key list when absent and leaves
the key list unchanged when present. -/
theorem keys_addTag (I : List (String × List Tag)) (d : String) (t : Tag) :
    (addTag I d t).map Prod.fst =
      if hasKey I d then I.map Prod.fst else I.map Prod.fst ++ [d] := by
  induction I with
  | nil => simp [addTag, hasKey]
  | cons p rest ih =>
    obtain ⟨k, ts⟩ := p
    by_cases hk : k = d
    · subst hk; simp [addTag, hasKey]
    · have hbeq : (k == d) = false := by simp [hk]
      simp only [addTag, if_neg hk, List.map_cons, ih, hasKey, List.any_cons,
        hbeq, Bool.false_or]
      by_cases h : (rest.any fun p => p.1 == d) = true <;> simp [h]

/-- Recording a tag preserves distinctness of the index's keys. -/
theorem nodup_keys_addTag (I : List (String × List Tag)) (d : String) (t : Tag)
    (h : (I.map Prod.fst).Nodup) : ((addTag I d t).map Prod.fst).Nodup := by
  rw [keys_addTag]
  cases hk : hasKey I d with
  | true => simpa using h
  | false =>
    have hmem : d ∉ I.map Prod.fst := by
      intro hm
      rw [(hasKey_iff_mem I d).mpr hm] at hk
      cases hk
    simp [List.nodup_append, h, hmem]

/-- With distinct keys, a diamond owns at most one index entry: exactly one
when present, none when absent. -/
theorem countKey_eq (I : List (String × List Tag)) (d : String)
    (h : (I.map Prod.fst).Nodup) :
    I.countP (fun p => p.1 == d) = if hasKey I d then 1 else 0 := by
  induction I with
  | nil => simp [hasKey]
  | cons p rest ih =>
    obtain ⟨k, ts⟩ := p
    simp only [List.map_cons, List.nodup_cons] at h
    by_cases hk : k = d
    · subst hk
      have hrest : hasKey rest k = false := by
        cases hh : hasKey rest k with
        | false => rfl
        | true => exact absurd ((hasKey_iff_mem rest k).mp hh) h.1
      have hc : List.countP (fun p => p.1 == k) rest = 0 := by
        rw [ih h.2, hrest]; rfl
      simp [List.countP_cons, hc, hasKey]
    · have hbeq : (k == d) = false := by simp [hk]
      have hcons : hasKey ((k, ts) :: rest) d = hasKey rest d := by
        simp [hasKey, hbeq]
      simp [List.countP_cons, hbeq, hcons, ih h.2]

/-- Recording no emissions is the identity. -/
@[simp] theorem applyEmits_nil (df : DiamondFinder) : applyEmits df [] = df := rfl

/-- Recording emissions one at a time. -/
theorem applyEmits_cons (df : DiamondFinder) (e : String × Tag)
    (es : List (String × Tag)) :
    applyEmits df (e :: es) = applyEmits (df.add_diamond e.1 e.2) es := rfl

/-- Recording a concatenation of emissions records each part in turn. -/
theorem applyEmits_append (df : DiamondFinder) (a b : List (String × Tag)) :
    applyEmits df (a ++ b) = applyEmits (applyEmits df a) b := by
  simp [applyEmits, List.foldl_append]

/-- Recording emissions leaves the alphabet untouched. -/
@[simp] theorem applyEmits_chars (df : DiamondFinder) (es : List (String × Tag)) :
    (applyEmits df es).chars = df.chars := by
  induction es generalizing df with
  | nil => rfl
  | cons e es ih => rw [applyEmits_cons, ih]; rfl

/-- Recording emissions leaves the minimum length untouched. -/
@[simp] theorem applyEmits_minlen (df : DiamondFinder)
    (es : List (String × Tag)) : (applyEmits df es).minlen = df.minlen := by
  induction es generalizing df with
  | nil => rfl
  | cons e es ih => rw [applyEmits_cons, ih]; rfl

/-- Recording emissions leaves the maximum length untouched. -/
@[simp] theorem applyEmits_maxlen (df : DiamondFinder)
    (es : List (String × Tag)) : (applyEmits df es).maxlen = df.maxlen := by
  induction es generalizing df with
  | nil => rfl
  | cons e es ih => rw [applyEmits_cons, ih]; rfl

/-- A diamond's tag list after recording a batch of emissions: the old list
followed by the tags of exactly the emissions bearing that text, in order. -/
theorem lookupTags_applyEmits (df : DiamondFinder) (es : List (String × Tag))
    (d : String) :
    lookupTags (applyEmits df es).index d =
      lookupTags df.index d
        ++ (es.filter (fun p => p.1 == d)).map Prod.snd := by
  induction es generalizing df with
  | nil => simp
  | cons e es ih =>
    rw [applyEmits_cons, ih]
    by_cases h : e.1 = d
    · simp [add_diamond_index, lookupTags_addTag, h, List.filter_cons]
    · have : (e.1 == d) = false := by simp [h]
      simp [add_diamond_index, lookupTags_addTag, Ne.symm h, List.filter_cons,
        this]

/-- A diamond is a key after recording a batch of emissions exactly when it
was a key before or one of the emissions bears its text. -/
theorem hasKey_applyEmits (df : DiamondFinder) (es : List (String × Tag))
    (d : String) :
    hasKey (applyEmits df es).index d
      = (hasKey df.index d || es.any (fun p => p.1 == d)) := by
  induction es generalizing df with
  | nil => simp
  | cons e es ih =>
    rw [applyEmits_cons, ih]
    simp only [add_diamond_index, hasKey_addTag, List.any_cons]
    cases h : (d == e.1)
    · have hne : ¬d = e.1 := by simpa using h
      have h2 : (e.1 == d) = false := by simp [Ne.symm hne]
      simp [h, h2]
    · have heq : d = e.1 := by simpa using h
      have h2 : (e.1 == d) = true := by simp [heq]
      simp [h, h2]

/-- Recording emissions preserves distinctness of the index's keys. -/
theorem nodup_keys_applyEmits (df : DiamondFinder) (es : List (String × Tag))
    (h : (df.index.map Prod.fst).Nodup) :
    ((applyEmits df es).index.map Prod.fst).Nodup := by
  induction es generalizing df with
  | nil => exact h
  | cons e es ih =>
    rw [applyEmits_cons]
    exact ih _ (nodup_keys_addTag _ _ _ h)

/-- The state-passing `scanline` loop records exactly the emissions computed
by `scanlineGo`, in order, all under the given tag. -/
theorem scanlineSt_eq (t : Tag) (line : List Char) :
    ∀ (df : DiamondFinder) (buf : List Char),
      scanlineSt t df line buf
        = applyEmits df
            ((scanlineGo df.chars df.minlen df.maxlen line buf).map
              (fun d => (d, t))) := by
  induction line with
  | nil => intro df buf; simp [scanlineSt, scanlineGo]
  | cons c rest ih =>
    intro df buf
    by_cases hc : c ∈ df.chars
    · by_cases hl : df.maxlen ≤ buf.length
      · simp [scanlineSt, scanlineGo, hc, hl, ih]
      · simp [scanlineSt, scanlineGo, hc, hl, ih]
    · by_cases hf : df.minlen ≤ buf.length ∧ buf.length ≤ df.maxlen
      · simp only [scanlineSt, scanlineGo, if_neg hc, if_pos hf]
        rw [ih]
        simp [applyEmits_cons]
      · simp [scanlineSt, scanlineGo, hc, hf, ih]

/-- `scanline` records exactly the emissions of the line, in order, under
the given tag. -/
theorem scanline_eq (df : DiamondFinder) (line : List Char) (t : Tag) :
    df.scanline line t
      = applyEmits df
          ((scanlineEmits df.chars df.minlen df.maxlen line).map
            (fun d => (d, t))) := by
  simp only [DiamondFinder.scanline, scanlineEmits]
  exact scanlineSt_eq t line df []

/-- `scanline` leaves the alphabet untouched. -/
@[simp] theorem scanline_chars (df : DiamondFinder) (line : List Char)
    (t : Tag) : (df.scanline line t).chars = df.chars := by
  rw [scanline_eq]; simp

/-- `scanline` leaves the minimum length untouched. -/
@[simp] theorem scanline_minlen (df : DiamondFinder) (line : List Char)
    (t : Tag) : (df.scanline line t).minlen = df.minlen := by
  rw [scanline_eq]; simp

/-- `scanline` leaves the maximum length untouched. -/
@[simp] theorem scanline_maxlen (df : DiamondFinder) (line : List Char)
    (t : Tag) : (df.scanline line t).maxlen = df.maxlen := by
  rw [scanline_eq]; simp

/-- Splitting the scanned characters splits the emissions, the second part
starting from the buffer left by the first. -/
theorem scanlineGo_append (chars : List Char) (ml Ml : Nat)
    (xs ys buf : List Char) :
    scanlineGo chars ml Ml (xs ++ ys) buf
      = scanlineGo chars ml Ml xs buf
          ++ scanlineGo chars ml Ml ys (finalBuf chars Ml xs buf) := by
  induction xs generalizing buf with
  | nil => simp [scanlineGo, finalBuf]
  | cons c rest ih =>
    by_cases hc : c ∈ chars
    · by_cases hl : Ml ≤ buf.length
      · simp [scanlineGo, finalBuf, hc, hl, ih]
      · simp [scanlineGo, finalBuf, hc, hl, ih]
    · by_cases hf : ml ≤ buf.length ∧ buf.length ≤ Ml
      · simp [scanlineGo, finalBuf, hc, hf, ih]
      · simp [scanlineGo, finalBuf, hc, hf, ih]

/-- The buffer after a split scan is the buffer of the second part started
from the buffer of the first. -/
theorem finalBuf_append (chars : List Char) (Ml : Nat) (xs ys buf : List Char) :
    finalBuf chars Ml (xs ++ ys) buf
      = finalBuf chars Ml ys (finalBuf chars Ml xs buf) := by
  induction xs generalizing buf with
  | nil => simp [finalBuf]
  | cons c rest ih =>
    by_cases hc : c ∈ chars
    · by_cases hl : Ml ≤ buf.length
      · simp [finalBuf, hc, hl, ih]
      · simp [finalBuf, hc, hl, ih]
    · simp [finalBuf, hc, ih]

/-- Characters of the alphabet alone never emit. -/
theorem scanlineGo_all_mem (chars : List Char) (ml Ml : Nat) (xs buf : List Char)
    (h : ∀ c ∈ xs, c ∈ chars) : scanlineGo chars ml Ml xs buf = [] := by
  induction xs generalizing buf with
  | nil => simp [scanlineGo]
  | cons c rest ih =>
    have hc : c ∈ chars := h c (List.mem_cons_self c rest)
    have hrest : ∀ c ∈ rest, c ∈ chars := fun c hm => h c (List.mem_cons_of_mem _ hm)
    by_cases hl : Ml ≤ buf.length
    · simp [scanlineGo, hc, hl, ih _ hrest]
    · simp [scanlineGo, hc, hl, ih _ hrest]

/-- Scanning alphabet characters grows the buffer, capped at `Ml`: the
buffer keeps its contents and takes in the first characters up to the cap. -/
theorem finalBuf_take (chars : List Char) (Ml : Nat) (xs : List Char) :
    ∀ buf : List Char, (∀ c ∈ xs, c ∈ chars) → buf.length ≤ Ml →
      finalBuf chars Ml xs buf = buf ++ xs.take (Ml - buf.length) := by
  induction xs with
  | nil => intro buf _ _; simp [finalBuf]
  | cons c rest ih =>
    intro buf h hb
    have hc : c ∈ chars := h c (List.mem_cons_self c rest)
    have hrest : ∀ c ∈ rest, c ∈ chars := fun c hm => h c (List.mem_cons_of_mem _ hm)
    by_cases hl : Ml ≤ buf.length
    · have h0 : Ml - buf.length = 0 := Nat.sub_eq_zero_of_le hl
      simp only [finalBuf, if_pos hc, if_pos hl]
      rw [ih buf hrest hb, h0]
      simp [h0]
    · have hlt : buf.length < Ml := by omega
      obtain ⟨k, hk⟩ : ∃ k, Ml - buf.length = k + 1 :=
        ⟨Ml - buf.length - 1, by omega⟩
      have hk' : Ml - (buf ++ [c]).length = k := by
        simp only [List.length_append, List.length_cons, List.length_nil]
        omega
      simp only [finalBuf, if_pos hc, if_neg hl]
      rw [ih (buf ++ [c]) hrest (by simp; omega), hk', hk]
      simp [List.take_succ_cons]

/-- A character outside the alphabet resets the buffer. -/
theorem finalBuf_single_notMem (chars : List Char) (Ml : Nat) (c : Char)
    (buf : List Char) (hc : c ∉ chars) : finalBuf chars Ml [c] buf = [] := by
  simp [finalBuf, hc]

/-- A single character outside the alphabet flushes the buffer: it emits the
buffered run exactly when the run length is within the bounds. -/
theorem scanlineGo_single_flush (chars : List Char) (ml Ml : Nat) (c : Char)
    (buf : List Char) (hc : c ∉ chars) :
    scanlineGo chars ml Ml [c] buf
      = if ml ≤ buf.length ∧ buf.length ≤ Ml then [buf.asString] else [] := by
  by_cases hf : ml ≤ buf.length ∧ buf.length ≤ Ml <;>
    simp [scanlineGo, hc, hf]

/-- With `Ml < ml` (an inverted length configuration) nothing ever emits. -/
theorem scanlineGo_invalid (chars : List Char) (ml Ml : Nat) (h : Ml < ml)
    (xs : List Char) : ∀ buf : List Char, scanlineGo chars ml Ml xs buf = [] := by
  induction xs with
  | nil => intro buf; simp [scanlineGo]
  | cons c rest ih =>
    intro buf
    have hf : ¬(ml ≤ buf.length ∧ buf.length ≤ Ml) := by omega
    by_cases hc : c ∈ chars
    · by_cases hl : Ml ≤ buf.length <;> simp [scanlineGo, hc, hl, ih]
    · simp [scanlineGo, hc, hf, ih]

/-- With an empty alphabet and a positive minimum length nothing ever
emits. -/
theorem scanlineGo_empty_alphabet (ml Ml : Nat) (h : 0 < ml) (xs : List Char) :
    scanlineGo [] ml Ml xs [] = [] := by
  induction xs with
  | nil => simp [scanlineGo]
  | cons c rest ih =>
    have hml : ¬ml = 0 := by omega
    simp [scanlineGo, hml, ih]

/-- The `scantext` loop records exactly the emissions of its lines, each
line extended with the newline sentinel and tagged with its 1-based line
number. -/
theorem scantextGo_eq (t : Tag) (ls : List (List Char)) :
    ∀ (df : DiamondFinder) (count : Nat),
      scantextGo t df ls count
        = applyEmits df (textEmitsGo df.chars df.minlen df.maxlen t ls count) := by
  induction ls with
  | nil => intro df count; simp [scantextGo, textEmitsGo]
  | cons l rest ih =>
    intro df count
    simp only [scantextGo, textEmitsGo]
    rw [ih, scanline_eq]
    simp [applyEmits_append]

/-- `scantext` records exactly the emissions of its text. -/
theorem scantext_eq (df : DiamondFinder) (text : List Char) (t : Tag) :
    df.scantext text t
      = applyEmits df (textEmits df.chars df.minlen df.maxlen text t) := by
  simp only [DiamondFinder.scantext, textEmits]
  exact scantextGo_eq t (splitLines text) df 1

/-- The state part of the `scanstream` loop records exactly the emissions
of the successfully decoded lines. -/
theorem scanstreamGo_fst_eq (t : Tag) (ls : List (Option (List Char))) :
    ∀ (df : DiamondFinder) (count : Nat),
      (scanstreamGo t df ls count).1
        = applyEmits df (streamEmits df.chars df.minlen df.maxlen t ls count) := by
  induction ls with
  | nil => intro df count; simp [scanstreamGo, streamEmits]
  | cons o rest ih =>
    intro df count
    cases o with
    | none => simp [scanstreamGo, streamEmits, ih]
    | some l =>
      simp only [scanstreamGo, streamEmits]
      rw [ih, scanline_eq]
      simp [applyEmits_append]

/-- `scanstream`'s state part records exactly the emissions of the decoded
lines. -/
theorem scanstream_fst_eq (df : DiamondFinder) (ls : List (Option (List Char)))
    (t : Tag) :
    (df.scanstream ls t).1
      = applyEmits df (streamEmits df.chars df.minlen df.maxlen t ls 1) := by
  simp only [DiamondFinder.scanstream]
  exact scanstreamGo_fst_eq t ls df 1

/-- Each scan operation records exactly its emissions. -/
theorem runOp_eq (df : DiamondFinder) (op : ScanOp) :
    runOp df op = applyEmits df (opEmits df.chars df.minlen df.maxlen op) := by
  cases op with
  | line l t => simpa [runOp, opEmits] using scanline_eq df l t
  | text s t => simpa [runOp, opEmits] using scantext_eq df s t
  | stream ls t => simpa [runOp, opEmits] using scanstream_fst_eq df ls t
  | file name content inc exc rp t =>
    by_cases h : check_extension name inc exc
    · simp [runOp, opEmits, DiamondFinder.scanfile, h, scanstream_fst_eq]
    · simp [runOp, opEmits, DiamondFinder.scanfile, h]

/-- A scan operation leaves the alphabet untouched. -/
@[simp] theorem runOp_chars (df : DiamondFinder) (op : ScanOp) :
    (runOp df op).chars = df.chars := by
  rw [runOp_eq]; simp

/-- A scan operation leaves the minimum length untouched. -/
@[simp] theorem runOp_minlen (df : DiamondFinder) (op : ScanOp) :
    (runOp df op).minlen = df.minlen := by
  rw [runOp_eq]; simp

/-- A scan operation leaves the maximum length untouched. -/
@[simp] theorem runOp_maxlen (df : DiamondFinder) (op : ScanOp) :
    (runOp df op).maxlen = df.maxlen := by
  rw [runOp_eq]; simp

/-- A sequence of scan operations records exactly the concatenation of all
its emissions, in order. -/
theorem runOps_eq (ops : List ScanOp) :
    ∀ df : DiamondFinder,
      runOps df ops = applyEmits df (opsEmits df.chars df.minlen df.maxlen ops) := by
  induction ops with
  | nil => intro df; simp [runOps, opsEmits]
  | cons op rest ih =>
    intro df
    have h1 : runOps df (op :: rest) = runOps (runOp df op) rest := by
      simp [runOps]
    rw [h1, ih, opsEmits]
    simp only [runOp_chars, runOp_minlen, runOp_maxlen]
    rw [runOp_eq, applyEmits_append]

/-- A sequence of scan operations leaves the alphabet untouched. -/
@[simp] theorem runOps_chars (df : DiamondFinder) (ops : List ScanOp) :
    (runOps df ops).chars = df.chars := by
  rw [runOps_eq]; simp

/-- A sequence of scan operations leaves the minimum length untouched. -/
@[simp] theorem runOps_minlen (df : DiamondFinder) (ops : List ScanOp) :
    (runOps df ops).minlen = df.minlen := by
  rw [runOps_eq]; simp

/-- A sequence of scan operations leaves the maximum length untouched. -/
@[simp] theorem runOps_maxlen (df : DiamondFinder) (ops : List ScanOp) :
    (runOps df ops).maxlen = df.maxlen := by
  rw [runOps_eq]; simp

/-- A failed read in the middle of a stream: the engine state passes over
the failed line unchanged, exactly one warning carrying that line's number
and the stream's tag is emitted in place, and the following lines keep
their stream positions as line numbers. -/
theorem scanstreamGo_skip (t : Tag) (post : List (Option (List Char)))
    (pre : List (Option (List Char))) :
    ∀ (df : DiamondFinder) (count : Nat),
      scanstreamGo t df (pre ++ none :: post) count
        = ((scanstreamGo t (scanstreamGo t df pre count).1 post
              (count + pre.length + 1)).1,
           (scanstreamGo t df pre count).2
             ++ (count + pre.length, t)
               :: (scanstreamGo t (scanstreamGo t df pre count).1 post
                     (count + pre.length + 1)).2) := by
  induction pre with
  | nil => intro df count; simp [scanstreamGo]
  | cons o rest ih =>
    intro df count
    cases o with
    | none =>
      simp only [List.cons_append, scanstreamGo, List.append_eq]
      rw [ih]
      simp [Nat.add_comm, Nat.add_assoc, Nat.add_left_comm]
    | some l =>
      simp only [List.cons_append, scanstreamGo, List.append_eq]
      rw [ih]
      simp [Nat.add_comm, Nat.add_assoc, Nat.add_left_comm]

/-- The `scantext` loop is the fold of the line scanner over the lines
paired with their position counted from the loop's starting counter. -/
theorem scantextGo_eq_numberFrom (t : Tag) (ls : List (List Char)) :
    ∀ (df : DiamondFinder) (count : Nat),
      scantextGo t df ls count
        = (numberFrom count ls).foldl
            (fun s p => s.scanline (p.2 ++ ['\n']) (t ++ [TagElem.num p.1])) df := by
  induction ls with
  | nil => intro df count; simp [scantextGo, numberFrom]
  | cons l rest ih => intro df count; simp [scantextGo, numberFrom, ih]

/-- Numbering a list keeps the elements in order. -/
theorem numberFrom_map_snd (n : Nat) (ls : List α) :
    (numberFrom n ls).map Prod.snd = ls := by
  induction ls generalizing n with
  | nil => simp [numberFrom]
  | cons a as ih => simp [numberFrom, ih]

/-- Numbering a list from `n` attaches the consecutive positions
`n, n + 1, ...`. -/
theorem numberFrom_map_fst (ls : List α) :
    ∀ n : Nat, (numberFrom n ls).map Prod.fst = List.range' n ls.length := by
  induction ls with
  | nil => intro n; simp [numberFrom]
  | cons a as ih => intro n; simp [numberFrom, List.range'_succ, ih]

/-- Splitting a text always yields at least one line. -/
theorem splitLines_ne_nil (l : List Char) : splitLines l ≠ [] := by
  induction l with
  | nil => simp [splitLines]
  | cons c rest ih =>
    by_cases h : c = '\n'
    · simp [splitLines, h]
    · simp only [splitLines, if_neg h]
      cases hs : splitLines rest <;> simp

/-- A text without newlines is a single line. -/
theorem splitLines_no_nl (l : List Char) (h : ∀ c ∈ l, c ≠ '\n') :
    splitLines l = [l] := by
  induction l with
  | nil => simp [splitLines]
  | cons c rest ih =>
    have hc : c ≠ '\n' := h c (List.mem_cons_self c rest)
    have hrest : ∀ c ∈ rest, c ≠ '\n' := fun c hm => h c (List.mem_cons_of_mem _ hm)
    simp [splitLines, hc, ih hrest]

/-- Appending newline-free characters extends the last line in place. -/
theorem splitLines_append_no_nl (r : List Char) (hr : ∀ c ∈ r, c ≠ '\n')
    (u : List Char) :
    ∃ I L, splitLines u = I ++ [L] ∧ splitLines (u ++ r) = I ++ [L ++ r] := by
  induction u with
  | nil => exact ⟨[], [], rfl, by simp [splitLines_no_nl r hr, splitLines]⟩
  | cons c u' ih =>
    obtain ⟨I, L, h1, h2⟩ := ih
    by_cases hc : c = '\n'
    · exact ⟨[] :: I, L, by simp [splitLines, hc, h1], by simp [splitLines, hc, h2]⟩
    · cases I with
      | nil =>
        refine ⟨[], c :: L, ?_, ?_⟩
        · simp [splitLines, hc, h1]
        · simp [splitLines, hc, h2]
      | cons I0 Irest =>
        refine ⟨(c :: I0) :: Irest, L, ?_, ?_⟩
        · simp [splitLines, hc, h1]
        · simp [splitLines, hc, h2]

/-- A trailing newline produces a final empty line. -/
theorem splitLines_append_newline (u : List Char) :
    splitLines (u ++ ['\n']) = splitLines u ++ [[]] := by
  induction u with
  | nil => simp [splitLines]
  | cons c u' ih =>
    by_cases hc : c = '\n'
    · simp [splitLines, hc, ih]
    · simp only [List.cons_append, splitLines, if_neg hc, List.append_eq]
      rw [ih]
      cases hs : splitLines u' with
      | nil => exact absurd hs (splitLines_ne_nil u')
      | cons l ls => simp [hs]

/-- The last line of a split text is its maximal newline-free trailing
segment: the text splits as a part ending in a newline (or empty) followed
by that last line. -/
theorem splitLines_last_decomp (u : List Char) :
    ∃ I p L, splitLines u = I ++ [L] ∧ u = p ++ L ∧ (∀ c ∈ L, c ≠ '\n')
      ∧ (p = [] ∨ p.getLast? = some '\n') := by
  induction u using List.reverseRecOn with
  | nil => exact ⟨[], [], [], rfl, rfl, by simp, Or.inl rfl⟩
  | append_singleton u c ih =>
    by_cases hc : c = '\n'
    · subst hc
      refine ⟨splitLines u, u ++ ['\n'], [], ?_, by simp, by simp, Or.inr ?_⟩
      · rw [splitLines_append_newline]
      · rw [List.getLast?_append_of_ne_nil u (by simp)]
        rfl
    · obtain ⟨I, p, L, h1, h2, h3, h4⟩ := ih
      have hr : ∀ x ∈ [c], x ≠ '\n' := by simpa using hc
      obtain ⟨I', L', g1, g2⟩ := splitLines_append_no_nl [c] hr u
      have heq : I = I' ∧ [L] = [L'] :=
        List.append_inj' (h1.symm.trans g1) rfl
      have hL : L = L' := by simpa using heq.2
      refine ⟨I', p, L' ++ [c], g2, ?_, ?_, h4⟩
      · rw [← List.append_assoc, ← hL, ← h2]
      · intro x hx
        rcases List.mem_append.mp hx with hx | hx
        · exact h3 x (hL ▸ hx)
        · have hxc : x = c := by simpa using hx
          rw [hxc]; exact hc

/-- A character outside the alphabet at the end of a run of characters
resets the buffer to empty, whatever came before. -/
theorem finalBuf_reset_of_last (chars : List Char) (Ml : Nat) (L : List Char)
    (c : Char) (hlast : L.getLast? = some c) (hc : c ∉ chars)
    (buf : List Char) : finalBuf chars Ml L buf = [] := by
  obtain ⟨L', rfl⟩ := List.getLast?_eq_some_iff.mp hlast
  rw [finalBuf_append]
  exact finalBuf_single_notMem chars Ml c _ hc

/-- When some line of the batch emits a diamond, the batch's emissions
contain it. -/
theorem any_textEmitsGo (chars : List Char) (ml Ml : Nat) (t : Tag) (d : String)
    (ls : List (List Char)) :
    ∀ count : Nat,
      (∃ l ∈ ls, d ∈ scanlineEmits chars ml Ml (l ++ ['\n'])) →
      (textEmitsGo chars ml Ml t ls count).any (fun p => p.1 == d) = true := by
  induction ls with
  | nil => intro count h; simp at h
  | cons l rest ih =>
    intro count h
    rcases h with ⟨l', hl', hd⟩
    rcases List.mem_cons.mp hl' with he | hm
    · subst he
      simp only [textEmitsGo, List.any_append, Bool.or_eq_true]
      left
      refine List.any_eq_true.mpr
        ⟨(d, t ++ [TagElem.num count]), List.mem_map_of_mem _ hd, by simp⟩
    · simp only [textEmitsGo, List.any_append, Bool.or_eq_true]
      exact Or.inr (ih (count + 1) ⟨l', hm, hd⟩)

/-- A line with no emissions leaves the engine unchanged. -/
theorem scanline_of_emits_nil (df : DiamondFinder) (line : List Char) (t : Tag)
    (h : scanlineEmits df.chars df.minlen df.maxlen line = []) :
    df.scanline line t = df := by
  rw [scanline_eq, h]; rfl

/-- C4: a line that is a run of alphabet characters followed by a
non-alphabet terminator emits exactly the full run (and records it once)
when the run length is within the inclusive bounds, and emits nothing (and
leaves the engine unchanged) when the run is shorter than the minimum. -/
theorem claim_C4 (df : DiamondFinder) (t : Tag) (r : List Char) (c : Char)
    (hr : ∀ x ∈ r, x ∈ df.chars) (hc : c ∉ df.chars) :
    (df.minlen ≤ r.length → r.length ≤ df.maxlen →
      scanlineEmits df.chars df.minlen df.maxlen (r ++ [c]) = [r.asString]
        ∧ df.scanline (r ++ [c]) t = df.add_diamond r.asString t)
    ∧ (r.length < df.minlen →
      scanlineEmits df.chars df.minlen df.maxlen (r ++ [c]) = []
        ∧ df.scanline (r ++ [c]) t = df) := by
  have hbuf : finalBuf df.chars df.maxlen r [] = r.take df.maxlen := by
    rw [finalBuf_take df.chars df.maxlen r [] hr (by simp)]
    simp
  have hsplit : scanlineEmits df.chars df.minlen df.maxlen (r ++ [c])
      = scanlineGo df.chars df.minlen df.maxlen [c] (r.take df.maxlen) := by
    simp only [scanlineEmits]
    rw [scanlineGo_append, scanlineGo_all_mem df.chars df.minlen df.maxlen r [] hr,
      hbuf]
    simp
  constructor
  · intro h1 h2
    have htake : r.take df.maxlen = r := List.take_of_length_le h2
    have hemits : scanlineEmits df.chars df.minlen df.maxlen (r ++ [c])
        = [r.asString] := by
      rw [hsplit, htake, scanlineGo_single_flush _ _ _ _ _ hc, if_pos ⟨h1, h2⟩]
    refine ⟨hemits, ?_⟩
    rw [scanline_eq, hemits]
    rfl
  · intro h1
    have hlen : (r.take df.maxlen).length < df.minlen := by
      have : (r.take df.maxlen).length ≤ r.length := by
        simp [List.length_take]
      omega
    have hflush : ¬(df.minlen ≤ (r.take df.maxlen).length
        ∧ (r.take df.maxlen).length ≤ df.maxlen) := by omega
    have hemits : scanlineEmits df.chars df.minlen df.maxlen (r ++ [c]) = [] := by
      rw [hsplit, scanlineGo_single_flush _ _ _ _ _ hc, if_neg hflush]
    exact ⟨hemits, scanline_of_emits_nil df _ t hemits⟩

/-- C4 witness: with alphabet `ab` and bounds `[1, 2]`, the line `a!` emits
the run `a`, and the line `!` (run length `0 < 1`) emits nothing. -/
theorem claim_C4_witness :
    (scanlineEmits ['a', 'b'] 1 2 (['a'] ++ ['!']) = [['a'].asString]
        ∧ (DiamondFinder.init ['a', 'b'] 1 2 false).scanline (['a'] ++ ['!']) []
            = (DiamondFinder.init ['a', 'b'] 1 2 false).add_diamond
                (['a'].asString) [])
    ∧ scanlineEmits ['a', 'b'] 1 2 (([] : List Char) ++ ['!']) = [] :=
  ⟨(claim_C4 (DiamondFinder.init ['a', 'b'] 1 2 false) [] ['a'] '!'
      (by decide) (by decide)).1 (by decide) (by decide),
   ((claim_C4 (DiamondFinder.init ['a', 'b'] 1 2 false) [] [] '!'
      (by decide) (by decide)).2 (by decide)).1⟩

/-- C5: appending a non-alphabet sentinel to a string whose maximal trailing
run of alphabet characters has qualifying length adds exactly one emission,
the trailing run itself; without the sentinel that run is not emitted. -/
theorem claim_C5 (df : DiamondFinder) (u r : List Char) (sent : Char)
    (hr : ∀ x ∈ r, x ∈ df.chars) (hrne : r ≠ [])
    (hu : u = [] ∨ ∃ c, u.getLast? = some c ∧ c ∉ df.chars)
    (hmin : df.minlen ≤ r.length) (hmax : r.length ≤ df.maxlen)
    (hsent : sent ∉ df.chars) :
    scanlineEmits df.chars df.minlen df.maxlen ((u ++ r) ++ [sent])
      = scanlineEmits df.chars df.minlen df.maxlen (u ++ r) ++ [r.asString] := by
  have hfu : finalBuf df.chars df.maxlen u [] = [] := by
    rcases hu with h | ⟨c, hlast, hc⟩
    · subst h; rfl
    · exact finalBuf_reset_of_last _ _ _ _ hlast hc []
  have hfb : finalBuf df.chars df.maxlen (u ++ r) [] = r := by
    rw [finalBuf_append, hfu, finalBuf_take df.chars df.maxlen r [] hr (by simp)]
    simp [List.take_of_length_le hmax]
  simp only [scanlineEmits]
  rw [scanlineGo_append df.chars df.minlen df.maxlen (u ++ r) [sent] [], hfb,
    scanlineGo_single_flush _ _ _ _ _ hsent, if_pos ⟨hmin, hmax⟩]

/-- C5 witness: with alphabet `ab` and bounds `[1, 2]`, the string `!a`
emits nothing, while `!a` with a newline sentinel appended emits the
trailing run `a`. -/
theorem claim_C5_witness :
    scanlineEmits ['a', 'b'] 1 2 ((['!'] ++ ['a']) ++ ['\n'])
      = scanlineEmits ['a', 'b'] 1 2 (['!'] ++ ['a']) ++ [['a'].asString] :=
  claim_C5 (DiamondFinder.init ['a', 'b'] 1 2 false) ['!'] ['a'] '\n'
    (by decide) (by decide) (Or.inr ⟨'!', by decide, by decide⟩)
    (by decide) (by decide) (by decide)

/-- C1 counterexample: with alphabet `ab` and bounds `[1, 2]`, the line
`aaa!` contains a maximal run of length `3 > maxLen = 2` followed by a
non-alphabet terminator, yet `scanline` emits one diamond — the first two
characters of the run — where the claim predicts zero emissions. -/
theorem claim_C1_counterexample :
    2 < (String.toList "aaa").length
      ∧ scanlineEmits ['a', 'b'] 1 2 (String.toList "aaa!") = ["aa"] := by
  constructor
  · decide
  · decide

/-- C1 (amended): a maximal run strictly longer than `maxLen` followed by a
non-alphabet terminator emits exactly one diamond consisting of the run's
first `maxLen` characters (the buffer is capped at `maxLen`, and the capped
buffer qualifies at flush time whenever `minLen ≤ maxLen`). -/
theorem claim_C1 (df : DiamondFinder) (t : Tag) (r : List Char) (c : Char)
    (hr : ∀ x ∈ r, x ∈ df.chars) (hc : c ∉ df.chars)
    (hlong : df.maxlen < r.length) (hvalid : df.minlen ≤ df.maxlen) :
    scanlineEmits df.chars df.minlen df.maxlen (r ++ [c])
      = [(r.take df.maxlen).asString]
      ∧ df.scanline (r ++ [c]) t
          = df.add_diamond (r.take df.maxlen).asString t := by
  have hbuf : finalBuf df.chars df.maxlen r [] = r.take df.maxlen := by
    rw [finalBuf_take df.chars df.maxlen r [] hr (by simp)]
    simp
  have hlen : (r.take df.maxlen).length = df.maxlen := by
    simp [List.length_take]
    omega
  have hemits : scanlineEmits df.chars df.minlen df.maxlen (r ++ [c])
      = [(r.take df.maxlen).asString] := by
    simp only [scanlineEmits]
    rw [scanlineGo_append, scanlineGo_all_mem df.chars df.minlen df.maxlen r [] hr,
      hbuf, scanlineGo_single_flush _ _ _ _ _ hc,
      if_pos (by rw [hlen]; exact ⟨hvalid, le_refl _⟩)]
    simp
  refine ⟨hemits, ?_⟩
  rw [scanline_eq, hemits]
  rfl

/-- C1 witness: with alphabet `ab` and bounds `[1, 2]`, the line `aaa!`
emits exactly the first two characters of its overlong run. -/
theorem claim_C1_witness :
    scanlineEmits ['a', 'b'] 1 2 (['a', 'a', 'a'] ++ ['!'])
      = [(List.take 2 ['a', 'a', 'a']).asString] :=
  (claim_C1 (DiamondFinder.init ['a', 'b'] 1 2 false) [] ['a', 'a', 'a'] '!'
    (by decide) (by decide) (by decide) (by decide)).1

/-- C2 counterexample: constructing the engine with `minLen = 5 > 2 = maxLen`
does not fail — it yields a fully formed engine whose scan of a line that
would otherwise qualify silently records nothing. -/
theorem claim_C2_counterexample :
    (DiamondFinder.init ['a'] 5 2 false).maxlen
        < (DiamondFinder.init ['a'] 5 2 false).minlen
      ∧ (DiamondFinder.init ['a'] 5 2 false).index = []
      ∧ ((DiamondFinder.init ['a'] 5 2 false).scanline
            (String.toList "aaa\n") []).index = [] := by
  refine ⟨by decide, rfl, by decide⟩

/-- C2 (amended): the constructor performs no validation and always
succeeds, storing the configuration with an empty index; an engine built
with `minLen > maxLen`, or with an empty alphabet and a positive `minLen`,
scans any line without error and records nothing. -/
theorem claim_C2 (chars : List Char) (ml Ml : Nat) (nf : Bool)
    (line : List Char) (t : Tag) :
    (DiamondFinder.init chars ml Ml nf).index = []
    ∧ (Ml < ml →
        (DiamondFinder.init chars ml Ml nf).scanline line t
          = DiamondFinder.init chars ml Ml nf)
    ∧ (chars = [] → 0 < ml →
        (DiamondFinder.init chars ml Ml nf).scanline line t
          = DiamondFinder.init chars ml Ml nf) := by
  refine ⟨rfl, ?_, ?_⟩
  · intro h
    exact scanline_of_emits_nil _ _ _
      (scanlineGo_invalid chars ml Ml h line [] :
        scanlineEmits (DiamondFinder.init chars ml Ml nf).chars
          (DiamondFinder.init chars ml Ml nf).minlen
          (DiamondFinder.init chars ml Ml nf).maxlen line = [])
  · intro hchars h
    subst hchars
    exact scanline_of_emits_nil _ _ _
      (scanlineGo_empty_alphabet ml Ml h line :
        scanlineEmits (DiamondFinder.init [] ml Ml nf).chars
          (DiamondFinder.init [] ml Ml nf).minlen
          (DiamondFinder.init [] ml Ml nf).maxlen line = [])

/-- C2 witness: an engine with `minLen = 5 > 2 = maxLen` accepts a scan of
`aaa` followed by a newline and is left unchanged. -/
theorem claim_C2_witness :
    (DiamondFinder.init ['a'] 5 2 false).scanline (String.toList "aaa\n") []
      = DiamondFinder.init ['a'] 5 2 false :=
  (claim_C2 ['a'] 5 2 false (String.toList "aaa\n") []).2.1 (by decide)

/-- The extension filter accepts exactly the files whose extension is in
neither provided list. -/
theorem check_extension_iff (file : String) (inc exc : Option (List String)) :
    check_extension file inc exc = true
      ↔ ((∀ l, inc = some l → pathSuffix file ∉ l)
          ∧ (∀ l, exc = some l → pathSuffix file ∉ l)) := by
  cases inc <;> cases exc <;> simp [check_extension, extIn]

/-- C3: a file whose extension lies in the `inc` list is rejected (the
"include" list behaves as an exclusion list), a file whose extension lies
in the `exc` list is rejected, and a file is opened and scanned exactly
when its extension lies in neither list; a rejected file leaves the engine
untouched. -/
theorem claim_C3 (df : DiamondFinder) (file : String)
    (content : List (Option (List Char))) (inc exc : Option (List String))
    (rp : Option String) (t : Tag) :
    (∀ l, inc = some l → pathSuffix file ∈ l →
        df.scanfile file content inc exc rp t = (false, df))
    ∧ (∀ l, exc = some l → pathSuffix file ∈ l →
        df.scanfile file content inc exc rp t = (false, df))
    ∧ ((df.scanfile file content inc exc rp t).1 = true
        ↔ ((∀ l, inc = some l → pathSuffix file ∉ l)
            ∧ (∀ l, exc = some l → pathSuffix file ∉ l))) := by
  have hfalse : ∀ h : ¬check_extension file inc exc = true,
      df.scanfile file content inc exc rp t = (false, df) := by
    intro h
    simp [DiamondFinder.scanfile, h]
  refine ⟨?_, ?_, ?_⟩
  · intro l hl hmem
    refine hfalse ?_
    intro hchk
    exact ((check_extension_iff file inc exc).mp hchk).1 l hl hmem
  · intro l hl hmem
    refine hfalse ?_
    intro hchk
    exact ((check_extension_iff file inc exc).mp hchk).2 l hl hmem
  · by_cases h : check_extension file inc exc = true
    · simp only [DiamondFinder.scanfile, if_pos h]
      simpa using (check_extension_iff file inc exc).mp h
    · rw [hfalse h]
      constructor
      · intro h'
        simp at h'
      · intro hp
        exact absurd ((check_extension_iff file inc exc).mpr hp) h

/-- C3 witness: with `include = ['.py']`, the file `x.py` is rejected
without scanning, and with `exclude = ['.lock']`, the file `x.lock` is
rejected without scanning. -/
theorem claim_C3_witness :
    (DiamondFinder.init ['a'] 1 2 false).scanfile "x.py" []
        (some [".py"]) none none []
      = (false, DiamondFinder.init ['a'] 1 2 false)
    ∧ (DiamondFinder.init ['a'] 1 2 false).scanfile "x.lock" []
        none (some [".lock"]) none []
      = (false, DiamondFinder.init ['a'] 1 2 false) :=
  ⟨(claim_C3 (DiamondFinder.init ['a'] 1 2 false) "x.py" [] (some [".py"])
      none none []).1 [".py"] rfl (by decide),
   (claim_C3 (DiamondFinder.init ['a'] 1 2 false) "x.lock" [] none
      (some [".lock"]) none []).2.1 [".lock"] rfl (by decide)⟩

/-- C6: when the read of one line of a stream fails to decode, `scanstream`
emits exactly one warning carrying that line's 1-based position and the
stream's tag, passes the engine state over the failed line unchanged, keeps
numbering the following lines by their true stream position, and returns
normally. -/
theorem claim_C6 (df : DiamondFinder) (t : Tag)
    (pre post : List (Option (List Char))) :
    df.scanstream (pre ++ none :: post) t
      = ((scanstreamGo t (scanstreamGo t df pre 1).1 post (pre.length + 2)).1,
         (scanstreamGo t df pre 1).2
           ++ (pre.length + 1, t)
             :: (scanstreamGo t (scanstreamGo t df pre 1).1 post
                   (pre.length + 2)).2) := by
  have h := scanstreamGo_skip t post pre df 1
  have e2 : 1 + pre.length + 1 = pre.length + 2 := by omega
  have e1 : 1 + pre.length = pre.length + 1 := Nat.add_comm 1 _
  simp only [DiamondFinder.scanstream]
  rw [h, e2, e1]

/-- On an engine started fresh, a diamond is a key after a run of scan
operations exactly when some emission of the run bears its text. -/
theorem hasKey_runOps_init (chars : List Char) (ml Ml : Nat) (nf : Bool)
    (ops : List ScanOp) (d : String) :
    hasKey (runOps (DiamondFinder.init chars ml Ml nf) ops).index d
      = (opsEmits chars ml Ml ops).any (fun p => p.1 == d) := by
  rw [runOps_eq, hasKey_applyEmits]
  simp [DiamondFinder.init, hasKey]

/-- Some emission bears a text exactly when the recorded count of that text
is nonzero. -/
theorem any_iff_recordedCount (chars : List Char) (ml Ml : Nat)
    (ops : List ScanOp) (d : String) :
    (opsEmits chars ml Ml ops).any (fun p => p.1 == d) = true
      ↔ recordedCount chars ml Ml ops d ≠ 0 := by
  rw [List.any_eq_true]
  constructor
  · rintro ⟨p, hp, hpd⟩
    exact Nat.pos_iff_ne_zero.mp (List.countP_pos_iff.mpr ⟨p, hp, hpd⟩)
  · intro h
    obtain ⟨p, hp, hpd⟩ := List.countP_pos_iff.mp (Nat.pos_iff_ne_zero.mpr h)
    exact ⟨p, hp, hpd⟩

/-- C7: over any run of scan operations from a freshly constructed engine,
the index starts empty, a diamond is a key exactly when at least one match
with its text has been recorded, recording appends the tag to the addressed
key's list while leaving every other key's list untouched, and one further
operation only ever extends a diamond's tag list. -/
theorem claim_C7 (chars : List Char) (ml Ml : Nat) (nf : Bool)
    (ops : List ScanOp) (d : String) :
    (DiamondFinder.init chars ml Ml nf).index = []
    ∧ (hasKey (runOps (DiamondFinder.init chars ml Ml nf) ops).index d = true
        ↔ recordedCount chars ml Ml ops d ≠ 0)
    ∧ (∀ (df : DiamondFinder) (t : Tag),
        lookupTags (df.add_diamond d t).index d = lookupTags df.index d ++ [t]
        ∧ ∀ d', d' ≠ d →
            lookupTags (df.add_diamond d t).index d' = lookupTags df.index d')
    ∧ (∀ op : ScanOp, ∃ ext : List Tag,
        lookupTags
            (runOps (DiamondFinder.init chars ml Ml nf) (ops ++ [op])).index d
          = lookupTags (runOps (DiamondFinder.init chars ml Ml nf) ops).index d
              ++ ext) := by
  refine ⟨rfl, ?_, ?_, ?_⟩
  · rw [hasKey_runOps_init]
    exact any_iff_recordedCount chars ml Ml ops d
  · intro df t
    constructor
    · rw [add_diamond_index, lookupTags_addTag]
      simp
    · intro d' hd'
      rw [add_diamond_index, lookupTags_addTag, if_neg hd']
  · intro op
    have hstep : runOps (DiamondFinder.init chars ml Ml nf) (ops ++ [op])
        = runOp (runOps (DiamondFinder.init chars ml Ml nf) ops) op := by
      simp [runOps, List.foldl_append]
    refine ⟨((opEmits chars ml Ml op).filter (fun p => p.1 == d)).map Prod.snd,
      ?_⟩
    rw [hstep, runOp_eq, lookupTags_applyEmits]
    simp [DiamondFinder.init]

/-- C7 witness: scanning the line `a` through a fresh engine with alphabet
`a` and bounds `[1, 2]` makes `a` a key, in agreement with its nonzero
recorded count. -/
theorem claim_C7_witness :
    (DiamondFinder.init ['a'] 1 2 false).index = []
    ∧ (hasKey (runOps (DiamondFinder.init ['a'] 1 2 false)
          [ScanOp.line (String.toList "a\n") []]).index "a" = true
        ↔ recordedCount ['a'] 1 2 [ScanOp.line (String.toList "a\n") []] "a"
            ≠ 0) :=
  ⟨(claim_C7 ['a'] 1 2 false [ScanOp.line (String.toList "a\n") []] "a").1,
   (claim_C7 ['a'] 1 2 false [ScanOp.line (String.toList "a\n") []] "a").2.1⟩

/-- C8: after any run of scan operations from a fresh engine, a diamond
text owns exactly one index entry when its recorded count is nonzero and
none otherwise, and the length of its tag list equals its recorded count of
occurrences. -/
theorem claim_C8 (chars : List Char) (ml Ml : Nat) (nf : Bool)
    (ops : List ScanOp) (d : String) :
    ((runOps (DiamondFinder.init chars ml Ml nf) ops).index.countP
          (fun p => p.1 == d)
        = if recordedCount chars ml Ml ops d = 0 then 0 else 1)
    ∧ (lookupTags (runOps (DiamondFinder.init chars ml Ml nf) ops).index
          d).length
        = recordedCount chars ml Ml ops d := by
  have hnodup :
      (((runOps (DiamondFinder.init chars ml Ml nf) ops).index.map
          Prod.fst)).Nodup := by
    rw [runOps_eq]
    exact nodup_keys_applyEmits _ _ (by simp [DiamondFinder.init])
  constructor
  · rw [countKey_eq _ _ hnodup, hasKey_runOps_init]
    by_cases h : recordedCount chars ml Ml ops d = 0
    · rw [if_pos h]
      have hany : (opsEmits chars ml Ml ops).any (fun p => p.1 == d) = false := by
        cases hh : (opsEmits chars ml Ml ops).any (fun p => p.1 == d) with
        | false => rfl
        | true => exact absurd h (any_iff_recordedCount chars ml Ml ops d |>.mp hh)
      rw [hany]
      rfl
    · rw [if_neg h, (any_iff_recordedCount chars ml Ml ops d).mpr h]
      rfl
  · rw [runOps_eq, lookupTags_applyEmits]
    simp [DiamondFinder.init, lookupTags, recordedCount,
      List.countP_eq_length_filter]

/-- C8 witness: two file scans, each contributing one occurrence of the
diamond `a`, leave the fresh engine with exactly one index entry for `a`
and a tag list of length two. -/
theorem claim_C8_witness :
    ((runOps (DiamondFinder.init ['a'] 1 2 false)
          [ScanOp.file "x.txt" [some (String.toList "a\n")] none none none [],
           ScanOp.file "y.txt" [some (String.toList "a\n")] none none none []]).index.countP
          (fun p => p.1 == "a")
        = if recordedCount ['a'] 1 2
              [ScanOp.file "x.txt" [some (String.toList "a\n")] none none none [],
               ScanOp.file "y.txt" [some (String.toList "a\n")] none none none []]
              "a" = 0 then 0 else 1)
    ∧ (lookupTags (runOps (DiamondFinder.init ['a'] 1 2 false)
          [ScanOp.file "x.txt" [some (String.toList "a\n")] none none none [],
           ScanOp.file "y.txt" [some (String.toList "a\n")] none none none []]).index
          "a").length
        = recordedCount ['a'] 1 2
            [ScanOp.file "x.txt" [some (String.toList "a\n")] none none none [],
             ScanOp.file "y.txt" [some (String.toList "a\n")] none none none []]
            "a" :=
  claim_C8 ['a'] 1 2 false
    [ScanOp.file "x.txt" [some (String.toList "a\n")] none none none [],
     ScanOp.file "y.txt" [some (String.toList "a\n")] none none none []] "a"

/-- C9: `scantext` splits its text on newlines and folds the line scanner
over the lines in order, handing each line (with the newline sentinel
appended) the caller's tag extended by the line's 1-based position; the
numbering visits the lines unchanged and attaches positions `1, 2, ...`. -/
theorem claim_C9 (df : DiamondFinder) (text : List Char) (t : Tag) :
    df.scantext text t
      = (numberFrom 1 (splitLines text)).foldl
          (fun s p => s.scanline (p.2 ++ ['\n']) (t ++ [TagElem.num p.1])) df
    ∧ (numberFrom 1 (splitLines text)).map Prod.snd = splitLines text
    ∧ (numberFrom 1 (splitLines text)).map Prod.fst
        = List.range' 1 (splitLines text).length :=
  ⟨scantextGo_eq_numberFrom t (splitLines text) df 1,
   numberFrom_map_snd 1 (splitLines text),
   numberFrom_map_fst (splitLines text) 1⟩

/-- C9 witness: the fold form of `scantext` at the two-line text `a`
newline `b`. -/
theorem claim_C9_witness :
    (DiamondFinder.init ['a'] 1 2 false).scantext (String.toList "a\nb") []
      = (numberFrom 1 (splitLines (String.toList "a\nb"))).foldl
          (fun s p => s.scanline (p.2 ++ ['\n']) ([] ++ [TagElem.num p.1]))
          (DiamondFinder.init ['a'] 1 2 false) :=
  (claim_C9 (DiamondFinder.init ['a'] 1 2 false) (String.toList "a\nb") []).1

/-- C10: `scantext` appends the newline sentinel to every line itself, so a
qualifying maximal run at the very end of the text — with no trailing
newline or terminator in the text — is still flushed and recorded as a key
of the index. -/
theorem claim_C10 (df : DiamondFinder) (t : Tag) (u r : List Char)
    (hnl : '\n' ∉ df.chars) (hr : ∀ x ∈ r, x ∈ df.chars)
    (hrne : r ≠ [])
    (hu : u = [] ∨ ∃ c, u.getLast? = some c ∧ c ∉ df.chars)
    (hmin : df.minlen ≤ r.length) (hmax : r.length ≤ df.maxlen) :
    hasKey (df.scantext (u ++ r) t).index r.asString = true := by
  have hnl' : '\n' ∉ df.chars := hnl
  have hrnl : ∀ c ∈ r, c ≠ '\n' := fun c hc he => hnl' (he ▸ hr c hc)
  obtain ⟨I, p, L, h1, h2, h3, h4⟩ := splitLines_last_decomp u
  obtain ⟨I', L', g1, g2⟩ := splitLines_append_no_nl r hrnl u
  have heq := List.append_inj' (h1.symm.trans g1) rfl
  have hL : L = L' := by simpa using heq.2
  have hmem : (L' ++ r) ∈ splitLines (u ++ r) := by
    rw [g2]
    exact List.mem_append_right _ (List.mem_singleton.mpr rfl)
  have hLprop : L' = [] ∨ ∃ c, L'.getLast? = some c ∧ c ∉ df.chars := by
    by_cases hL0 : L' = []
    · exact Or.inl hL0
    · right
      have hult : u.getLast? = L'.getLast? := by
        rw [h2, hL]
        exact List.getLast?_append_of_ne_nil p hL0
      rcases hu with hue | ⟨c, hc1, hc2⟩
      · exfalso
        apply hL0
        have hnil : p ++ L = [] := by rw [← h2, hue]
        rw [← hL]
        exact (List.append_eq_nil.mp hnil).2
      · exact ⟨c, hult ▸ hc1, hc2⟩
  have hemit : r.asString
      ∈ scanlineEmits df.chars df.minlen df.maxlen ((L' ++ r) ++ ['\n']) := by
    have hfL : finalBuf df.chars df.maxlen L' [] = [] := by
      rcases hLprop with h | ⟨c, hc1, hc2⟩
      · rw [h]; rfl
      · exact finalBuf_reset_of_last _ _ _ _ hc1 hc2 []
    have hfb : finalBuf df.chars df.maxlen (L' ++ r) [] = r := by
      rw [finalBuf_append, hfL, finalBuf_take df.chars df.maxlen r [] hr (by simp)]
      simp [List.take_of_length_le hmax]
    simp only [scanlineEmits]
    rw [scanlineGo_append, hfb, scanlineGo_single_flush _ _ _ _ _ hnl',
      if_pos ⟨hmin, hmax⟩]
    exact List.mem_append_right _ (List.mem_singleton.mpr rfl)
  rw [scantext_eq, hasKey_applyEmits]
  have hany := any_textEmitsGo df.chars df.minlen df.maxlen t r.asString
    (splitLines (u ++ r)) 1 ⟨L' ++ r, hmem, hemit⟩
  simp [textEmits, hany]

/-- C10 witness: with alphabet `ab` and bounds `[1, 2]`, scanning the text
`!a` — which does not end with a newline — records the trailing run `a`. -/
theorem claim_C10_witness :
    hasKey ((DiamondFinder.init ['a', 'b'] 1 2 false).scantext
        (['!'] ++ ['a']) []).index (['a'].asString) = true :=
  claim_C10 (DiamondFinder.init ['a', 'b'] 1 2 false) [] ['!'] ['a']
    (by decide) (by decide) (by decide) (Or.inr ⟨'!', by decide, by decide⟩)
    (by decide) (by decide)

end Diamonds
